import Mathlib

/-!
A shallow embedding of the ordered atomic multicast core of the Derecho
group-communication system (the `MulticastGroup` translation unit),
together with theorems about its sequence-number arithmetic, its
send-side flow control, its receive/stability/delivery/persistence
state machine, its view-handover transfer loop, and its predicate and
wedge lifecycle.

Counters that are `long long int` in the source are modelled as `Int`;
the values appearing in every statement below are far from the 64-bit
range, so wrap-around is immaterial.  `std::map` is modelled as an
association list sorted strictly by key, so that `begin()` is the
least-key entry.
-/

namespace Derecho

/-- Lookup in a `std::map` modelled as an association list (`map::find`). -/
def mapFind? {α : Type} (k : Int) : List (Int × α) → Option α
  | [] => none
  | (q, v) :: t => if k = q then some v else mapFind? k t

/-- `std::map::operator[] =`: insert at the sorted position, overwriting an
existing binding with the same key. -/
def mapInsert {α : Type} (k : Int) (v : α) : List (Int × α) → List (Int × α)
  | [] => [(k, v)]
  | (q, w) :: t =>
    if k < q then (k, v) :: (q, w) :: t
    else if k = q then (k, v) :: t
    else (q, w) :: mapInsert k v t

/-- `std::map::emplace`: insert only if the key is not already present. -/
def mapEmplace {α : Type} (k : Int) (v : α) (m : List (Int × α)) : List (Int × α) :=
  if (mapFind? k m).isSome then m else mapInsert k v m

/-- `std::map::erase` of a key. -/
def mapErase {α : Type} (k : Int) : List (Int × α) → List (Int × α)
  | [] => []
  | (q, w) :: t => if k = q then t else (q, w) :: mapErase k t

/-- Representation invariant of the `std::map` model: keys strictly
increase along the list, so the head is `begin()`, the least key. -/
def SortedKeys {α : Type} (m : List (Int × α)) : Prop :=
  List.Pairwise (fun p q => p.1 < q.1) m

instance {α : Type} (m : List (Int × α)) : Decidable (SortedKeys m) :=
  inferInstanceAs (Decidable (List.Pairwise _ m))

/-- `std::min_element` over a row slice, as used on
`num_received[member_index][offset .. offset + num_shard_members)`:
returns the value and the index of the first minimum. -/
def minVI : List Int → Int × Nat
  | [] => (0, 0)
  | [x] => (x, 0)
  | x :: y :: t =>
    if x ≤ (minVI (y :: t)).1 then (x, 0)
    else ((minVI (y :: t)).1, (minVI (y :: t)).2 + 1)

/-- `sst->num_received[member_index][slot]++` on the modelled row slice. -/
def bump (l : List Int) (k : Nat) : List Int :=
  l.set k (l.getD k 0 + 1)

/-- `sizeof(header)` for the three-field message header.  The exact byte
count is immaterial to the control flow modelled here; it only enters
additively into message sizes and as the returned pointer offset. -/
def sizeofHeader : Nat := 16

/-- A `Message` together with the header fields stored at the front of its
`MessageBuffer` (`header_size` is always `sizeofHeader` and is left
implicit; `cooked` and `pause` stand for the `cooked_send` and
`pause_sending_turns` words of the buffer). -/
structure Message where
  sender_rank : Nat
  index : Int
  size : Nat
  cooked : Bool
  pause : Nat
deriving DecidableEq, Repr

/-- Externally visible actions of the core: SST publications (`sst->put`
of a single cell range), user callbacks, the hand-off of a record to the
persistence writer, and the condition-variable signal to the sender loop. -/
inductive Event where
  | putSeqNum
  | putNumReceived (k : Nat)
  | putStableNum
  | putDeliveredNum
  | putPersistedNum
  | globalStability (sender_rank : Nat) (index : Int) (size : Nat)
  | rpcUpcall (sender_rank : Nat) (payload_size : Nat)
  | fileWrite (sender_rank : Nat) (index : Int) (size : Nat) (cooked : Bool)
  | localPersistence (sender_rank : Nat) (index : Int)
  | notifySender
deriving DecidableEq, Repr

/-- Is this event an SST publication? -/
def Event.isPut : Event → Bool
  | .putSeqNum => true
  | .putNumReceived _ => true
  | .putStableNum => true
  | .putDeliveredNum => true
  | .putPersistedNum => true
  | _ => false

/-- The SST publications among a list of events. -/
def putEvents (evs : List Event) : List Event := evs.filter Event.isPut

/-- Is this event a user-facing delivery callback
(`global_stability_callback` or `rpc_callback`)? -/
def Event.isUserCallback : Event → Bool
  | .globalStability _ _ _ => true
  | .rpcUpcall _ _ => true
  | _ => false

/-- The user-facing delivery callbacks among a list of events. -/
def userEvents (evs : List Event) : List Event := evs.filter Event.isUserCallback

/-- The per-node, per-shard state of the multicast core, projected onto one
subgroup that this node belongs to.  `S` is `num_shard_members`, `N` is
`num_members` (the whole group), `myk` is this node's sender slot
(`shard_index`), and `hasFW` records whether a `file_writer` is
configured.  `num_received` is the slice
`sst->num_received[member_index][offset .. offset + S)` of this node's own
row; `seq_num`, `stable_num`, `delivered_num`, `persisted_num` are this
node's own cells for the subgroup. -/
structure NodeState where
  S : Nat
  N : Nat
  myk : Nat
  hasFW : Bool
  num_received : List Int
  seq_num : Int
  stable_num : Int
  delivered_num : Int
  persisted_num : Int
  current_sends : Option Message
  current_receives : List (Int × Message)
  locally_stable : List (Int × Message)
  non_persistent : List (Int × Message)
  free_count : Nat
deriving DecidableEq, Repr

/-- `MulticastGroup::deliver_message` (one subgroup).  For a non-empty
message: cooked sends go to `rpc_callback` with the payload size, raw
sends to `global_stability_callback`; with a `file_writer` the message
moves to `non_persistent_messages` under the key
`msg.index * num_members + msg.sender_rank` and a record is handed to the
writer, otherwise the buffer returns to the free pool.  Size-zero
messages are skipped entirely. -/
def deliver_message (st : NodeState) (msg : Message) : NodeState × List Event :=
  if 0 < msg.size then
    if st.hasFW then
      ({ st with non_persistent :=
           mapEmplace (msg.index * st.N + msg.sender_rank) msg st.non_persistent },
       [(if msg.cooked then Event.rpcUpcall msg.sender_rank (msg.size - sizeofHeader)
         else Event.globalStability msg.sender_rank msg.index msg.size),
        .fileWrite msg.sender_rank msg.index msg.size msg.cooked])
    else
      ({ st with free_count := st.free_count + 1 },
       [(if msg.cooked then Event.rpcUpcall msg.sender_rank (msg.size - sizeofHeader)
         else Event.globalStability msg.sender_rank msg.index msg.size)])
  else (st, [])

/-- The placeholder loop of the receive handler: for each of
`pause_sending_turns` turns, advance `index` and `sequence_number`, bump
`num_received[slot k]`, and file a size-zero message `{k, index, 0, 0}`
into `locally_stable_messages`. -/
def pauseLoop (S k : Nat) : Nat → Int → Int → List Int → List (Int × Message) →
    List Int × List (Int × Message)
  | 0, _, _, nr, ls => (nr, ls)
  | p + 1, index, seq, nr, ls =>
    pauseLoop S k p (index + 1) (seq + S) (bump nr k)
      (mapInsert (seq + S) ⟨k, index + 1, 0, false, 0⟩ ls)

/-- Tail of `rdmc_receive_handler` after the message has been extracted
from `current_sends` (self) or `current_receives` (peer): bump
`num_received[k]`, file the message and the pause placeholders into
`locally_stable_messages`, recompute the first minimum of `num_received`
over the shard slots, and update/publish `seq_num` when the recomputed
value is larger.  `useEmplace` distinguishes the `emplace` used on the
peer path from the `operator[]` assignment used on the self path.
The `notifySender` event models `receive_handler_plus_notify`, which is
only installed for this node's own slot.  `recvAssemble` is the final
minimum recomputation and publication on the updated row slice and
message map `pl`; `recvFinish` feeds it the outcome of the bump, the
filing of the message, and the placeholder loop. -/
def recvAssemble (st1 : NodeState) (k : Nat) (pl : List Int × List (Int × Message)) :
    NodeState × List Event :=
  if st1.seq_num < ((minVI pl.1).1 + 1) * st1.S + (minVI pl.1).2 - 1 then
    ({ st1 with num_received := pl.1, locally_stable := pl.2,
                seq_num := ((minVI pl.1).1 + 1) * st1.S + (minVI pl.1).2 - 1 },
     [.putSeqNum, .putNumReceived k] ++ (if k = st1.myk then [.notifySender] else []))
  else
    ({ st1 with num_received := pl.1, locally_stable := pl.2 },
     [.putNumReceived k] ++ (if k = st1.myk then [.notifySender] else []))

def recvFinish (st1 : NodeState) (k : Nat) (m : Message) (useEmplace : Bool) :
    NodeState × List Event :=
  recvAssemble st1 k
    (pauseLoop st1.S k m.pause ((bump st1.num_received k).getD k 0)
      ((bump st1.num_received k).getD k 0 * st1.S + k) (bump st1.num_received k)
      (if useEmplace then
        mapEmplace ((bump st1.num_received k).getD k 0 * st1.S + k) m st1.locally_stable
       else
        mapInsert ((bump st1.num_received k).getD k 0 * st1.S + k) m st1.locally_stable))

/-- `rdmc_receive_handler` for sender slot `k` of the shard.  On the self
slot the completed message is the one staged in `current_sends`; the
conjunction checked there is the transport FIFO contract (the source
`assert`s the slot is occupied and trusts RDMC to complete sends in
order).  On a peer slot the message is the entry of `current_receives`
filed under the computed sequence number (the source `assert`s it is
present).  Slots outside `[0, S)` are never instantiated. -/
def recvStep (st : NodeState) (k : Nat) : Option (NodeState × List Event) :=
  if k < st.S then
    if k = st.myk then
      match st.current_sends with
      | some m =>
        if m.sender_rank = k ∧ m.index = (bump st.num_received k).getD k 0 then
          some (recvFinish { st with current_sends := none } k m false)
        else none
      | none => none
    else
      match mapFind? ((bump st.num_received k).getD k 0 * st.S + k)
          st.current_receives with
      | some m =>
        some (recvFinish
          { st with current_receives :=
              (mapErase ((bump st.num_received k).getD k 0 * st.S + k)
                st.current_receives) }
          k m true)
      | none => none
  else none

/-- The receive-destination callback registered for a peer slot `k`:
acquire a free buffer (the source `assert`s the pool is non-empty),
construct `Message { sender_rank := k, index := num_received[k] + 1,
size := length }` and file it in `current_receives` under
`index * num_shard_members + k`.  `pause` and `cooked` stand for the
header words the sender will have written into the delivered bytes.
The destination callback of this node's own slot `assert`s false. -/
def destStep (st : NodeState) (k : Nat) (length : Nat) (pause : Nat) (cooked : Bool) :
    Option (NodeState × List Event) :=
  if k = st.myk then none
  else if k < st.S then
    if st.free_count = 0 then none
    else
      some ({ st with
                free_count := st.free_count - 1,
                current_receives :=
                  (mapInsert ((st.num_received.getD k 0 + 1) * st.S + k)
                    ⟨k, st.num_received.getD k 0 + 1, length, cooked, pause⟩
                    st.current_receives) },
            [])
  else none

/-- Abstraction of the sender loop moving the head of `pending_sends`
into the empty `current_sends` slot and issuing the transport send. -/
def loadSendStep (st : NodeState) (m : Message) : Option (NodeState × List Event) :=
  match st.current_sends with
  | some _ => none
  | none => some ({ st with current_sends := some m }, [])

/-- `stability_trig`: recompute the minimum of `seq_num` over the shard
members (this node included; `others` carries the peer rows read from the
SST) and publish it as `stable_num` when strictly larger than the
current value. -/
def stabilityStep (st : NodeState) (others : List Int) : NodeState × List Event :=
  if st.stable_num < others.foldl min st.seq_num then
    ({ st with stable_num := others.foldl min st.seq_num }, [.putStableNum])
  else (st, [])

/-- `delivery_trig`: recompute the minimum of `stable_num` over the shard
members (this node included; `others` carries the peer rows), and if
`locally_stable_messages` has a least-key entry no larger than that
minimum, deliver exactly that message, set and publish `delivered_num`,
and erase the entry. -/
def deliveryStep (st : NodeState) (others : List Int) : NodeState × List Event :=
  match st.locally_stable with
  | [] => (st, [])
  | (least_undelivered_seq_num, msg) :: rest =>
    if least_undelivered_seq_num ≤ others.foldl min st.stable_num then
      ({ (deliver_message st msg).1 with
           delivered_num := least_undelivered_seq_num,
           locally_stable := rest },
       (deliver_message st msg).2 ++ [.putDeliveredNum])
    else (st, [])

/-- The completion upcall installed by `make_file_written_callback`: the
writer confirms the durable write of a record, the corresponding entry of
`non_persistent_messages` is released to the pool and erased, and
`persisted_num` is set to its sequence number and published.  Records are
handed to the writer in delivery order and completed in that order
(spec of the persistence bridge), and entries are filed in increasing
key order, so the completed record is the least-key entry. -/
def persistStep (st : NodeState) : Option (NodeState × List Event) :=
  match st.non_persistent with
  | [] => none
  | (sequence_number, msg) :: rest =>
    some ({ st with
              non_persistent := rest,
              free_count := st.free_count + 1,
              persisted_num := sequence_number },
          [.localPersistence msg.sender_rank msg.index, .putPersistedNum])

/-- One scheduled action of the per-node state machine. -/
inductive StepLabel where
  | dest (k : Nat) (length : Nat) (pause : Nat) (cooked : Bool)
  | recv (k : Nat)
  | loadSend (m : Message)
  | stability (others : List Int)
  | delivery (others : List Int)
  | persist
deriving DecidableEq, Repr

/-- Apply one action; `none` means its guard (a source `assert` or an
impossible scheduling) fails. -/
def applyStep (st : NodeState) : StepLabel → Option (NodeState × List Event)
  | .dest k len p c => destStep st k len p c
  | .recv k => recvStep st k
  | .loadSend m => loadSendStep st m
  | .stability o => some (stabilityStep st o)
  | .delivery o => some (deliveryStep st o)
  | .persist => persistStep st

/-- Run a finite schedule of actions. -/
def run (st : NodeState) : List StepLabel → Option NodeState
  | [] => some st
  | l :: ls =>
    match applyStep st l with
    | some (st', _) => run st' ls
    | none => none

/-- State invariant of the per-node machine, established by
`initialize_sst_row` and preserved by every step: shape constraints,
the chain `delivered_num ≤ stable_num ≤ seq_num`, `seq_num` strictly
below the sequence number of any message yet to be received, sortedness
and key/field agreement of the three message maps, undelivered keys above
`delivered_num`, unpersisted keys above `persisted_num`, and the
decomposition of `persisted_num` as a delivered sequence number. -/
def NodeInv (st : NodeState) : Prop :=
  1 ≤ st.S ∧
  st.S ≤ st.N ∧
  st.myk < st.S ∧
  st.num_received.length = st.S ∧
  (∀ x ∈ st.num_received, -1 ≤ x) ∧
  (∀ j, j < st.S → st.seq_num < (st.num_received.getD j 0 + 1) * st.S + j) ∧
  st.stable_num ≤ st.seq_num ∧
  st.delivered_num ≤ st.stable_num ∧
  SortedKeys st.locally_stable ∧
  SortedKeys st.current_receives ∧
  SortedKeys st.non_persistent ∧
  (∀ p ∈ st.locally_stable,
    p.1 = p.2.index * st.S + p.2.sender_rank ∧ p.2.sender_rank < st.S ∧ 0 ≤ p.2.index) ∧
  (∀ p ∈ st.current_receives,
    p.1 = p.2.index * st.S + p.2.sender_rank ∧ p.2.sender_rank < st.S ∧ 0 ≤ p.2.index) ∧
  (∀ p ∈ st.locally_stable, st.delivered_num < p.1) ∧
  (∀ p ∈ st.non_persistent,
    p.1 = p.2.index * st.N + p.2.sender_rank ∧ p.2.sender_rank < st.S ∧ 0 ≤ p.2.index ∧
      p.2.index * st.S + p.2.sender_rank ≤ st.delivered_num) ∧
  (∀ p ∈ st.non_persistent, st.persisted_num < p.1) ∧
  (st.persisted_num = -1 ∨
    (0 ≤ st.persisted_num ∧ st.persisted_num % st.N < st.S ∧
      st.persisted_num / st.N * st.S + st.persisted_num % st.N ≤ st.delivered_num))

instance (st : NodeState) : Decidable (NodeInv st) := by
  unfold NodeInv
  exact inferInstance

/-- The five SST counters of this node's row never decrease. -/
def countersLE (st st' : NodeState) : Prop :=
  (∀ j, st.num_received.getD j 0 ≤ st'.num_received.getD j 0) ∧
  st.seq_num ≤ st'.seq_num ∧
  st.stable_num ≤ st'.stable_num ∧
  st.delivered_num ≤ st'.delivered_num ∧
  st.persisted_num ≤ st'.persisted_num

/-- The state set up by `initialize_sst_row` (all counters `-1`) with the
message buffer pool pre-filled to `window_size * num_shard_members`. -/
def initNodeState (S N myk : Nat) (hasFW : Bool) (window_size : Nat) : NodeState :=
  { S := S, N := N, myk := myk, hasFW := hasFW,
    num_received := List.replicate S (-1),
    seq_num := -1, stable_num := -1, delivered_num := -1, persisted_num := -1,
    current_sends := none, current_receives := [], locally_stable := [],
    non_persistent := [], free_count := window_size * S }

/-- The send-side state of one subgroup that this node belongs to:
the construction/shutdown flags, the configured sizes, the shard binding
(`num_shard_members` is `S`, `shard_index` this node's slot), this
subgroup's `future_message_indices` entry, this node's own
`num_received` cell at the subgroup's offset, the `delivered_num` and
`persisted_num` cells of the shard members as read from the SST, the
free-buffer pool, and the `next_sends` / `pending_sends` slots. -/
structure SendState where
  rdmc_groups_created : Bool
  thread_shutdown : Bool
  max_msg_size : Nat
  window_size : Int
  num_shard_members : Nat
  shard_index : Nat
  future_message_index : Int
  num_received_self : Int
  delivered_nums : List Int
  persisted_nums : List Int
  has_file_writer : Bool
  free_buffer_count : Nat
  next_send : Option Message
  pending_sends : List Message
deriving DecidableEq, Repr

/-- `MulticastGroup::get_sendbuffer_ptr(subgroup_num, payload_size,
pause_sending_turns, cooked_send)`: `none` models a null return.  A zero
`payload_size` selects the full `max_msg_size`.  The window check
compares every shard member's `delivered_num` against
`(future_message_index - window_size) * num_shard_members + shard_index`
(the source narrows that bound through an `(int)` cast, immaterial at
the magnitudes considered here).  On success the staged message and the
returned pointer offset (`buf + sizeof(header)`) are produced. -/
def get_sendbuffer_ptr (st : SendState) (payload_size : Nat)
    (pause_sending_turns : Nat) (cooked_send : Bool) : Option (SendState × Nat) :=
  if !st.rdmc_groups_created then none
  else
    let msg_size : Nat := if payload_size = 0 then st.max_msg_size
                          else payload_size + sizeofHeader
    if st.max_msg_size < msg_size then none
    else if !(st.delivered_nums.all fun d =>
        (st.future_message_index - st.window_size) * st.num_shard_members
          + st.shard_index ≤ d) then none
    else if st.thread_shutdown then none
    else if st.free_buffer_count = 0 then none
    else
      let msg : Message :=
        { sender_rank := st.shard_index, index := st.future_message_index,
          size := msg_size, cooked := cooked_send, pause := pause_sending_turns }
      some ({ st with
                free_buffer_count := st.free_buffer_count - 1,
                next_send := some msg,
                future_message_index :=
                  st.future_message_index + pause_sending_turns + 1 },
            sizeofHeader)

/-- `MulticastGroup::send(subgroup_num)`: fails fast (returns `false`)
when shutdown is in progress or the transport groups were not created;
otherwise it `assert`s `next_sends` is occupied (`none` models the
assertion failure), moves it onto `pending_sends`, and signals the
sender loop. -/
def send (st : SendState) : Option (Bool × SendState × List Event) :=
  if st.thread_shutdown || !st.rdmc_groups_created then some (false, st, [])
  else
    match st.next_send with
    | none => none
    | some m =>
      some (true,
            { st with pending_sends := st.pending_sends ++ [m], next_send := none },
            [.notifySender])

/-- `should_send_to_subgroup` from `MulticastGroup::send_loop`: the head
of `pending_sends` may be dispatched only when the transport groups
exist, this node's own `num_received` cell has caught up to
`msg.index - 1`, and every shard member's `delivered_num` (and
`persisted_num` when a `file_writer` is configured) has reached
`(msg.index - window_size) * num_shard_members + shard_index`. -/
def should_send_to_subgroup (st : SendState) : Bool :=
  if !st.rdmc_groups_created then false
  else
    match st.pending_sends with
    | [] => false
    | msg :: _ =>
      if st.num_received_self < msg.index - 1 then false
      else
        (List.range st.num_shard_members).all fun i =>
          !(st.delivered_nums.getD i 0 <
              (msg.index - st.window_size) * st.num_shard_members + st.shard_index
            || (st.has_file_writer &&
                st.persisted_nums.getD i 0 <
                  (msg.index - st.window_size) * st.num_shard_members + st.shard_index))

/-- The sequence number computed by `rdmc_receive_handler`:
`index * num_shard_members + k` for sender slot `k` of the shard. -/
def receiveSequenceNumber (num_shard_members : Nat) (index : Int) (k : Nat) : Int :=
  index * num_shard_members + k

/-- The sequence number computed by `deliver_message` when filing a
message for persistence: `msg.index * num_members + msg.sender_rank`,
with `num_members` the size of the whole group. -/
def deliverSequenceNumber (num_members : Nat) (index : Int) (sender_rank : Nat) : Int :=
  index * num_members + sender_rank

/-- The sequence number recomputed by the `make_file_written_callback`
upcall: `m.index * num_members + sender_rank`, with `num_members` the
size of the whole group. -/
def persistSequenceNumber (num_members : Nat) (index : Int) (sender_rank : Nat) : Int :=
  index * num_members + sender_rank

/-- State threaded through the view-handover constructor while it
processes the subgroups this node belongs to: the new view's
`member_index` and `future_message_indices`, the new group's
`non_persistent_messages` under construction, and the old group's
`non_persistent_messages` (outer `std::map` keyed by subgroup). -/
structure HandoverState where
  member_index : Nat
  future_message_indices : List Int
  new_non_persistent : List (Nat × List (Int × Message))
  old_non_persistent : List (Nat × List (Int × Message))
deriving DecidableEq, Repr

/-- `convert_msg` from the handover constructor: restamp the sender rank
to the new view's `member_index`, renumber `index` from
`future_message_indices[subgroup_num]++`, and advance the counter past
the header's `pause_sending_turns`. -/
def convert_msg (h : HandoverState) (m : Message) (g : Nat) : Message × HandoverState :=
  let m' := { m with sender_rank := h.member_index,
                     index := h.future_message_indices.getD g 0 }
  let fut1 := h.future_message_indices.set g (h.future_message_indices.getD g 0 + 1)
  let fut2 := fut1.set g (fut1.getD g 0 + m.pause)
  (m', { h with future_message_indices := fut2 })

/-- Lookup of the outer `std::map<uint32_t, std::map<...>>` with the
`operator[]` default of an empty inner map. -/
def outerFind (g : Nat) (m : List (Nat × List (Int × Message))) : List (Int × Message) :=
  match m.lookup g with
  | some inner => inner
  | none => []

/-- Set a subgroup's inner map in the outer map (`operator[]` on the new
group's `non_persistent_messages`). -/
def outerSet (g : Nat) (v : List (Int × Message)) :
    List (Nat × List (Int × Message)) → List (Nat × List (Int × Message))
  | [] => [(g, v)]
  | (q, w) :: t => if g = q then (g, v) :: t else (q, w) :: outerSet g v t

/-- The inner loop of the handover constructor transferring one
subgroup's `non_persistent_messages` entries into the new group
(`emplace` of the converted message under the old key). -/
def transferEntries (g : Nat) (entries : List (Int × Message)) (h : HandoverState) :
    HandoverState :=
  match entries with
  | [] => h
  | (key, m) :: rest =>
    let c := convert_msg h m g
    transferEntries g rest
      { c.2 with new_non_persistent :=
          (outerSet g (mapEmplace key c.1 (outerFind g c.2.new_non_persistent))
            c.2.new_non_persistent) }

/-- The `non_persistent_messages` portion of the handover constructor's
per-subgroup loop (the loop over `subgroup_to_shard_n_index`, iterated
in increasing subgroup order): for each subgroup, transfer the entries
of `old_group.non_persistent_messages[subgroup_num]` with
`convert_msg`, then execute `old_group.non_persistent_messages.clear()`
— which the source places inside the loop, clearing the whole outer
map.  The requeueing of `current_sends`, `pending_sends` and
`next_sends` that shares this loop only advances
`future_message_indices` and never touches `non_persistent_messages`;
it is omitted here (the inputs considered below have those slots
empty). -/
def handoverNonPersistentLoop (subgroups : List Nat) (h : HandoverState) : HandoverState :=
  match subgroups with
  | [] => h
  | g :: rest =>
    let h1 := transferEntries g (outerFind g h.old_non_persistent) h
    handoverNonPersistentLoop rest { h1 with old_non_persistent := [] }

/-- The number of messages held in an outer `non_persistent_messages`
map. -/
def totalMessages (m : List (Nat × List (Int × Message))) : Nat :=
  (m.map fun p => p.2.length).sum

/-- Bookkeeping state of `sst->predicates` handle registration together
with the `MulticastGroup` members that cache the three handles, the
shutdown flag, and the data needed by `wedge` (`num_members` and
`rdmc_group_num_offset`). -/
structure PredicateState where
  next_handle : Nat
  inserted : List Nat
  stability_pred_handle : Nat
  delivery_pred_handle : Nat
  sender_pred_handle : Nat
  thread_shutdown : Bool
  num_members : Nat
  rdmc_group_num_offset : Nat
deriving DecidableEq, Repr

/-- `sst->predicates.insert(...)`: returns a fresh handle and records it. -/
def insertPred (st : PredicateState) : Nat × PredicateState :=
  (st.next_handle,
   { st with next_handle := st.next_handle + 1,
             inserted := st.inserted ++ [st.next_handle] })

/-- One iteration of `MulticastGroup::register_predicates`: insert the
stability, delivery and sender predicates for a subgroup, storing each
fresh handle into the single corresponding member variable (overwriting
whatever a previous iteration stored there). -/
def registerOne (st : PredicateState) : PredicateState :=
  let p1 := insertPred st
  let s1 := { p1.2 with stability_pred_handle := p1.1 }
  let p2 := insertPred s1
  let s2 := { p2.2 with delivery_pred_handle := p2.1 }
  let p3 := insertPred s2
  { p3.2 with sender_pred_handle := p3.1 }

/-- `MulticastGroup::register_predicates`: the loop over the subgroups
this node belongs to (`subgroup_to_shard_n_index`, increasing order). -/
def register_predicates (subgroups : List Nat) (st : PredicateState) : PredicateState :=
  match subgroups with
  | [] => st
  | _ :: rest => register_predicates rest (registerOne st)

/-- What a call to `wedge` did: the predicate handles passed to
`predicates.remove`, the transport-group ids passed to
`rdmc::destroy_group`, whether `sender_cv.notify_all` ran, and whether
the sender thread was joined. -/
structure WedgeResult where
  removed : List Nat
  destroyed : List Nat
  signaled : Bool
  joined_sender : Bool
deriving DecidableEq, Repr

/-- `MulticastGroup::wedge`: an atomic exchange on `thread_shutdown`
makes every call after the first a no-op; the first call removes the
three cached predicate handles, destroys the transport-group ids
`rdmc_group_num_offset .. rdmc_group_num_offset + num_members`, signals
the workers and joins the sender thread. -/
def wedge (st : PredicateState) : PredicateState × WedgeResult :=
  if st.thread_shutdown then (st, ⟨[], [], false, false⟩)
  else
    ({ st with thread_shutdown := true },
     { removed := [st.stability_pred_handle, st.delivery_pred_handle,
                   st.sender_pred_handle],
       destroyed := (List.range st.num_members).map (· + st.rdmc_group_num_offset),
       signaled := true,
       joined_sender := true })

/-- The window property on `delivered_num` guaranteed whenever
`get_sendbuffer_ptr` hands out a buffer: every shard member has
delivered up to `(future_message_index - window_size) * S + shard_index`. -/
def DeliveredWindowHolds (st : SendState) : Prop :=
  ∀ d ∈ st.delivered_nums,
    (st.future_message_index - st.window_size) * st.num_shard_members
      + st.shard_index ≤ d

instance (st : SendState) : Decidable (DeliveredWindowHolds st) := by
  unfold DeliveredWindowHolds
  exact inferInstance

/-- Behaviour of `get_sendbuffer_ptr` on a zero `payload_size`: the call
is not rejected as overlarge; a message of the full `max_msg_size` is
staged in `next_sends`, `future_message_indices` advances past the pause
turns, and the pointer just past the header is returned. -/
def ZeroPayloadSpec (st : SendState) (pt : Nat) (c : Bool) : Prop :=
  ∃ st', get_sendbuffer_ptr st 0 pt c = some (st', sizeofHeader) ∧
    st'.next_send = some { sender_rank := st.shard_index,
                           index := st.future_message_index,
                           size := st.max_msg_size, cooked := c, pause := pt } ∧
    st'.future_message_index = st.future_message_index + pt + 1

/-- Behaviour of `send`: returns `false` exactly when shutdown is in
progress or the transport groups were not created (in which case
`get_sendbuffer_ptr` also returns null); on success it moves `next_sends`
onto `pending_sends` and signals the sender loop. -/
def SendSpec (st : SendState) (m : Message) : Prop :=
  ((send st).map (fun r => r.1) = some false ↔
     (st.thread_shutdown = true ∨ st.rdmc_groups_created = false)) ∧
  (st.rdmc_groups_created = false →
    send st = some (false, st, []) ∧
    ∀ p pt c, get_sendbuffer_ptr st p pt c = none) ∧
  (st.thread_shutdown = false → st.rdmc_groups_created = true →
    send st = some (true,
      { st with pending_sends := st.pending_sends ++ [m], next_send := none },
      [.notifySender]))

/-- Behaviour of the receive handler's `seq_num` recomputation: with
`mv` the minimum of the updated `num_received` row slice and `mi` the
first index attaining it, `new_seq_num = (mv + 1) * S + mi - 1`; when it
exceeds the current `seq_num` both `seq_num` and `num_received` are
published, otherwise only `num_received`. -/
def RecvSeqSpec (st st' : NodeState) (k : Nat) (evs : List Event) : Prop :=
  ∃ mv mi,
    mv ∈ st'.num_received ∧
    (∀ x ∈ st'.num_received, mv ≤ x) ∧
    st'.num_received.getD mi 0 = mv ∧
    (∀ i, i < mi → mv < st'.num_received.getD i 0) ∧
    mi < st'.num_received.length ∧
    (st.seq_num < (mv + 1) * st.S + mi - 1 →
      st'.seq_num = (mv + 1) * st.S + mi - 1 ∧
      putEvents evs = [.putSeqNum, .putNumReceived k]) ∧
    ((mv + 1) * st.S + mi - 1 ≤ st.seq_num →
      st'.seq_num = st.seq_num ∧ putEvents evs = [.putNumReceived k])

/-- Behaviour of `delivery_trig` when the least-key entry `(q, m)` of
`locally_stable_messages` is no larger than the shard minimum of
`stable_num`: exactly that entry is consumed, `delivered_num` is set to
`q` and published, and the user callbacks fire exactly once for a real
message and never for a size-zero placeholder. -/
def DeliverySpec (st : NodeState) (others : List Int) (q : Int) (m : Message)
    (rest : List (Int × Message)) : Prop :=
  (deliveryStep st others).1.delivered_num = q ∧
  (deliveryStep st others).1.locally_stable = rest ∧
  Event.putDeliveredNum ∈ (deliveryStep st others).2 ∧
  (∀ p ∈ rest, q < p.1) ∧
  (userEvents (deliveryStep st others).2).length = (if m.size = 0 then 0 else 1)

/-- The handles `s, s + 1, ..., s + n - 1`. -/
def handleRange (s n : Nat) : List Nat := (List.range n).map (s + ·)

/-- Send-side state used to exercise `get_sendbuffer_ptr` with the
delivery window open but none of the shard's `persisted_num` cells past
the window floor (they sit at the initial `-1`). -/
def c2State : SendState :=
  { rdmc_groups_created := true, thread_shutdown := false, max_msg_size := 4096,
    window_size := 3, num_shard_members := 2, shard_index := 0,
    future_message_index := 3, num_received_self := 2,
    delivered_nums := [3, 3], persisted_nums := [-1, -1],
    has_file_writer := true, free_buffer_count := 1, next_send := none,
    pending_sends := [] }

/-- Send-side state with a message staged in `next_sends`. -/
def c9State : SendState :=
  { rdmc_groups_created := true, thread_shutdown := false, max_msg_size := 4096,
    window_size := 3, num_shard_members := 2, shard_index := 1,
    future_message_index := 1, num_received_self := -1,
    delivered_nums := [-1, -1], persisted_nums := [-1, -1],
    has_file_writer := false, free_buffer_count := 5,
    next_send := some ⟨1, 0, 80, false, 0⟩, pending_sends := [] }

/-- The message staged in `c9State`. -/
def c9Msg : Message := ⟨1, 0, 80, false, 0⟩

/-- Send-side state with the window open, a free buffer, and no shutdown. -/
def c10State : SendState :=
  { rdmc_groups_created := true, thread_shutdown := false, max_msg_size := 1024,
    window_size := 4, num_shard_members := 3, shard_index := 2,
    future_message_index := 0, num_received_self := -1,
    delivered_nums := [-1, -1, -1], persisted_nums := [-1, -1, -1],
    has_file_writer := false, free_buffer_count := 12, next_send := none,
    pending_sends := [] }

/-- A node state about to complete the receipt of its own first message. -/
def c4State : NodeState :=
  { S := 2, N := 2, myk := 0, hasFW := false, num_received := [-1, -1],
    seq_num := -1, stable_num := -1, delivered_num := -1, persisted_num := -1,
    current_sends := some ⟨0, 0, 20, false, 0⟩, current_receives := [],
    locally_stable := [], non_persistent := [], free_count := 4 }

/-- The result of that receive completion. -/
def c4Result : NodeState × List Event := (recvStep c4State 0).getD (c4State, [])

/-- A node state whose locally stable head message is globally stable. -/
def c5State : NodeState :=
  { S := 2, N := 2, myk := 0, hasFW := false, num_received := [0, -1],
    seq_num := 0, stable_num := 0, delivered_num := -1, persisted_num := -1,
    current_sends := none, current_receives := [],
    locally_stable := [(0, ⟨0, 0, 20, false, 0⟩)], non_persistent := [],
    free_count := 4 }

/-- A reachable node state with persistence enabled and one record at the
writer. -/
def c6State : NodeState :=
  { S := 2, N := 3, myk := 0, hasFW := true, num_received := [0, 0],
    seq_num := 0, stable_num := 0, delivered_num := 0, persisted_num := -1,
    current_sends := none, current_receives := [], locally_stable := [],
    non_persistent := [(0, ⟨0, 0, 5, false, 0⟩)], free_count := 4 }

/-- A schedule exercising the persistence completion, the stability
trigger and the delivery trigger from `c6State`. -/
def c6Labels : List StepLabel :=
  [.persist, .stability [1], .delivery [0], .dest 1 7 1 false, .recv 1, .stability [3]]

/-- The state reached by running `c6Labels` from `c6State`. -/
def c6End : NodeState := (run c6State c6Labels).getD c6State

/-- Old-group state for the view handover with this node a member of two
subgroups, each holding one message awaiting persistence. -/
def c7Initial : HandoverState :=
  { member_index := 0, future_message_indices := [0, 0],
    new_non_persistent := [],
    old_non_persistent := [(0, [(5, ⟨1, 2, 100, false, 0⟩)]),
                           (1, [(7, ⟨1, 3, 100, false, 0⟩)])] }

/-- A fresh predicate-bookkeeping state for a three-member group. -/
def c8State : PredicateState := ⟨0, [], 0, 0, 0, false, 3, 10⟩

/-- Behaviour of the first `wedge` after `register_predicates` ran over
the subgroups `gs ++ [g]`: it removes exactly the three predicate
handles cached last — those inserted for the final subgroup `g` — while
registration inserted three handles per subgroup; it destroys the
transport-group ids of this view's range, signals the workers, joins the
sender thread, and every later `wedge` call is a no-op.  When the node
belongs to exactly one subgroup (`gs = []`), the removed handles are
therefore exactly the inserted ones. -/
def WedgeSpec (st0 : PredicateState) (gs : List Nat) (g : Nat) : Prop :=
  (wedge (register_predicates (gs ++ [g]) st0)).2.removed =
      handleRange (st0.next_handle + 3 * gs.length) 3 ∧
  (register_predicates (gs ++ [g]) st0).inserted =
      st0.inserted ++ handleRange st0.next_handle (3 * gs.length + 3) ∧
  (wedge (register_predicates (gs ++ [g]) st0)).2.destroyed =
      (List.range st0.num_members).map (· + st0.rdmc_group_num_offset) ∧
  (wedge (register_predicates (gs ++ [g]) st0)).2.signaled = true ∧
  (wedge (register_predicates (gs ++ [g]) st0)).2.joined_sender = true ∧
  (gs = [] →
    (wedge (register_predicates (gs ++ [g]) st0)).2.removed =
      handleRange st0.next_handle 3) ∧
  (wedge (wedge (register_predicates (gs ++ [g]) st0)).1).2 = ⟨[], [], false, false⟩

/-- C1: the receive-path assembler computes sequence numbers with
`S = num_shard_members`, but `deliver_message` and the persistence
completion callback compute them with `num_members`, the size of the
whole group.  In a group of 4 whose shard has 2 senders, the message of
sender slot 0 with per-sender index 1 gets sequence number 2 on the
receive path but 4 in the delivery/persistence bookkeeping, so the three
computations do not agree. -/
theorem sequence_number_scale_mismatch :
    receiveSequenceNumber 2 1 0 = 2 ∧
    deliverSequenceNumber 4 1 0 = 4 ∧
    persistSequenceNumber 4 1 0 = 4 ∧
    receiveSequenceNumber 2 1 0 ≠ deliverSequenceNumber 4 1 0 := by
  decide

/-- C7: with the node a member of subgroups 0 and 1, each holding one
non-persistent message, the handover loop transfers only subgroup 0's
message; the `clear()` placed inside the per-subgroup loop empties the
whole outer map, so subgroup 1's message is dropped. -/
theorem handover_drops_second_subgroup :
    totalMessages c7Initial.old_non_persistent = 2 ∧
    totalMessages (handoverNonPersistentLoop [0, 1] c7Initial).new_non_persistent = 1 ∧
    outerFind 1 (handoverNonPersistentLoop [0, 1] c7Initial).new_non_persistent = [] := by
  decide

/-- C8 (counterexample): registering predicates for the two subgroups
`[0, 1]` inserts six handles, but the first `wedge` removes only the
three stored last — those of subgroup 1 — so the predicates inserted for
subgroup 0 are not removed. -/
theorem wedge_misses_first_subgroup :
    (register_predicates [0, 1] c8State).inserted = [0, 1, 2, 3, 4, 5] ∧
    (wedge (register_predicates [0, 1] c8State)).2.removed = [3, 4, 5] ∧
    0 ∉ (wedge (register_predicates [0, 1] c8State)).2.removed := by
  decide

/-- C2 (counterexample): with persistence enabled, every peer's
`delivered_num` past the window floor but every peer's `persisted_num`
still at `-1` (below the floor), `get_sendbuffer_ptr` nevertheless hands
out a buffer: no `persisted_num` bound is enforced there. -/
theorem get_sendbuffer_ignores_persisted :
    (get_sendbuffer_ptr c2State 10 0 false).isSome = true ∧
    c2State.has_file_writer = true ∧
    ¬ (∀ p ∈ c2State.persisted_nums,
        (c2State.future_message_index - c2State.window_size) * c2State.num_shard_members
          + c2State.shard_index ≤ p) := by
  decide

/-- C2 (amended): whenever `get_sendbuffer_ptr` returns a buffer, every
shard member's `delivered_num` is at least
`(future_message_index - window_size) * S + shard_index`; no analogous
check on `persisted_num` is performed there (persistence gating happens
in the sender loop instead). -/
theorem get_sendbuffer_ptr_window (st : SendState) (payload_size pt : Nat) (c : Bool)
    (r : SendState × Nat) (h : get_sendbuffer_ptr st payload_size pt c = some r) :
    DeliveredWindowHolds st := by
  intro d hd
  by_cases hall : (st.delivered_nums.all fun x =>
      decide ((st.future_message_index - st.window_size) * st.num_shard_members
        + st.shard_index ≤ x)) = true
  · exact of_decide_eq_true (List.all_eq_true.mp hall d hd)
  · exfalso
    simp only [get_sendbuffer_ptr] at h
    rw [Bool.eq_false_iff.mpr hall] at h
    simp at h

/-- C2 (amended) witness. -/
theorem get_sendbuffer_ptr_window_witness : DeliveredWindowHolds c2State :=
  get_sendbuffer_ptr_window c2State 10 0 false
    ((get_sendbuffer_ptr c2State 10 0 false).getD (c2State, 0)) (by decide)

/-- C3: the sender loop may dispatch the head of `pending_sends` exactly
when the transport groups exist, `pending_sends` is non-empty, this
node's own `num_received` cell is at least `msg.index - 1`, and every
shard member's `delivered_num` — and `persisted_num` when persistence is
on — has reached `(msg.index - window_size) * S + shard_index`. -/
theorem should_send_to_subgroup_iff (st : SendState) :
    should_send_to_subgroup st = true ↔
      (st.rdmc_groups_created = true ∧
       ∃ msg rest, st.pending_sends = msg :: rest ∧
         msg.index - 1 ≤ st.num_received_self ∧
         ∀ i, i < st.num_shard_members →
           ((msg.index - st.window_size) * st.num_shard_members + st.shard_index ≤
              st.delivered_nums.getD i 0 ∧
            (st.has_file_writer = true →
              (msg.index - st.window_size) * st.num_shard_members + st.shard_index ≤
                st.persisted_nums.getD i 0))) := by
  unfold should_send_to_subgroup
  cases hcr : st.rdmc_groups_created
  · simp
  · cases hp : st.pending_sends with
    | nil => simp
    | cons msg rest =>
      by_cases hnr : st.num_received_self < msg.index - 1
      · simp only [Bool.not_true, Bool.false_eq_true, if_false, if_pos hnr]
        constructor
        · intro hfalse
          exact absurd hfalse (by simp)
        · rintro ⟨-, m, r, hmr, hle, -⟩
          cases hmr
          exact absurd hle (not_le.mpr hnr)
      · simp only [Bool.not_true, Bool.false_eq_true, if_false, if_neg hnr,
          List.all_eq_true, List.mem_range]
        constructor
        · intro hall
          refine ⟨trivial, msg, rest, rfl, not_lt.mp hnr, fun i hi => ?_⟩
          have := hall i hi
          simp only [Bool.not_eq_true', Bool.or_eq_false_iff, Bool.and_eq_false_iff,
            decide_eq_false_iff_not, not_lt] at this
          refine ⟨this.1, fun hfw => ?_⟩
          rcases this.2 with hfw' | hps
          · exact absurd hfw (by simp [hfw'])
          · exact hps
        · rintro ⟨-, m, r, hmr, -, hbound⟩
          cases hmr
          intro i hi
          have hb := hbound i hi
          simp only [Bool.not_eq_true', Bool.or_eq_false_iff, Bool.and_eq_false_iff,
            decide_eq_false_iff_not, not_lt]
          refine ⟨hb.1, ?_⟩
          cases hfw : st.has_file_writer
          · exact Or.inl rfl
          · exact Or.inr (hb.2 hfw)

/-- C9: `send` returns `false` exactly when shutdown is in progress or
the transport groups were not created; after a construction failure
`get_sendbuffer_ptr` also returns null on every call; on success `send`
moves `next_sends` onto `pending_sends`, signals the sender loop, and
returns `true`. -/
theorem send_returns_false_iff (st : SendState) (m : Message)
    (h : st.next_send = some m) : SendSpec st m := by
  refine ⟨?_, ?_, ?_⟩
  · unfold send
    cases hsh : st.thread_shutdown <;> cases hcr : st.rdmc_groups_created <;>
      simp [h]
  · intro hcr
    constructor
    · unfold send
      simp [hcr]
    · intro p pt c
      unfold get_sendbuffer_ptr
      simp [hcr]
  · intro hsh hcr
    unfold send
    simp [hsh, hcr, h]

/-- C9 witness. -/
theorem send_returns_false_iff_witness : SendSpec c9State c9Msg :=
  send_returns_false_iff c9State c9Msg rfl

/-- C10: a call with `payload_size = 0` is not rejected as overlarge;
the message size silently becomes `max_msg_size`, a message of that full
size is staged in `next_sends`, and the pointer just past the header is
returned. -/
theorem zero_payload_accepted (st : SendState) (pt : Nat) (c : Bool)
    (hcr : st.rdmc_groups_created = true) (hsh : st.thread_shutdown = false)
    (hpool : st.free_buffer_count ≠ 0)
    (hwin : DeliveredWindowHolds st) : ZeroPayloadSpec st pt c := by
  have hall : (st.delivered_nums.all fun x =>
      decide ((st.future_message_index - st.window_size) * st.num_shard_members
        + st.shard_index ≤ x)) = true :=
    List.all_eq_true.mpr fun d hd => decide_eq_true (hwin d hd)
  have hres : get_sendbuffer_ptr st 0 pt c =
      some ({ st with
                free_buffer_count := st.free_buffer_count - 1,
                next_send := (some { sender_rank := st.shard_index,
                                     index := st.future_message_index,
                                     size := st.max_msg_size, cooked := c,
                                     pause := pt }),
                future_message_index := st.future_message_index + pt + 1 },
            sizeofHeader) := by
    unfold get_sendbuffer_ptr
    rw [hcr, hall]
    simp [hsh, hpool]
  exact ⟨_, hres, rfl, rfl⟩

/-- C10 witness. -/
theorem zero_payload_accepted_witness : ZeroPayloadSpec c10State 3 true :=
  zero_payload_accepted c10State 3 true rfl rfl (by decide) (by decide)

theorem handleRange_three (a : Nat) : handleRange a 3 = [a, a + 1, a + 2] := by
  simp [handleRange, List.range_succ]

theorem handleRange_append (a m n : Nat) :
    handleRange a m ++ handleRange (a + m) n = handleRange a (m + n) := by
  induction n with
  | zero => simp [handleRange]
  | succ n ih =>
    have h1 : handleRange (a + m) (n + 1) = handleRange (a + m) n ++ [a + m + n] := by
      simp [handleRange, List.range_succ]
    have h2 : handleRange a (m + (n + 1)) = handleRange a (m + n) ++ [a + (m + n)] := by
      have : m + (n + 1) = (m + n) + 1 := by omega
      rw [this]
      simp [handleRange, List.range_succ]
    rw [h1, ← List.append_assoc, ih, h2, Nat.add_assoc]

theorem registerOne_spec (st : PredicateState) :
    registerOne st = { st with next_handle := st.next_handle + 3,
                               inserted := st.inserted ++ handleRange st.next_handle 3,
                               stability_pred_handle := st.next_handle,
                               delivery_pred_handle := st.next_handle + 1,
                               sender_pred_handle := st.next_handle + 2 } := by
  simp [registerOne, insertPred, handleRange_three]

theorem register_predicates_spec (gs : List Nat) (st : PredicateState) :
    (register_predicates gs st).next_handle = st.next_handle + 3 * gs.length ∧
    (register_predicates gs st).inserted =
      st.inserted ++ handleRange st.next_handle (3 * gs.length) ∧
    (register_predicates gs st).thread_shutdown = st.thread_shutdown ∧
    (register_predicates gs st).num_members = st.num_members ∧
    (register_predicates gs st).rdmc_group_num_offset = st.rdmc_group_num_offset := by
  induction gs generalizing st with
  | nil => simp [register_predicates, handleRange]
  | cons g rest ih =>
    have hr := ih (registerOne st)
    rw [registerOne_spec] at hr
    simp only [register_predicates]
    rw [registerOne_spec]
    simp only at hr ⊢
    refine ⟨?_, ?_, hr.2.2.1, hr.2.2.2.1, hr.2.2.2.2⟩
    · rw [hr.1]
      simp only [List.length_cons]
      omega
    · rw [hr.2.1, List.append_assoc, handleRange_append]
      simp only [List.length_cons]
      have : 3 + 3 * rest.length = 3 * (rest.length + 1) := by omega
      rw [this]

theorem register_predicates_append (xs ys : List Nat) (st : PredicateState) :
    register_predicates (xs ++ ys) st = register_predicates ys (register_predicates xs st) := by
  induction xs generalizing st with
  | nil => rfl
  | cons x rest ih =>
    simp only [List.cons_append, register_predicates]
    exact ih (registerOne st)

theorem register_last_handles (gs : List Nat) (g : Nat) (st : PredicateState) :
    (register_predicates (gs ++ [g]) st).stability_pred_handle
        = st.next_handle + 3 * gs.length ∧
    (register_predicates (gs ++ [g]) st).delivery_pred_handle
        = st.next_handle + 3 * gs.length + 1 ∧
    (register_predicates (gs ++ [g]) st).sender_pred_handle
        = st.next_handle + 3 * gs.length + 2 := by
  rw [register_predicates_append]
  simp only [register_predicates]
  rw [registerOne_spec]
  refine ⟨?_, ?_, ?_⟩ <;> simp [(register_predicates_spec gs st).1]

/-- C8 (amended): the first `wedge` removes exactly the predicate
handles cached by `register_predicates` — those of the last subgroup
registered, which are all of the inserted handles only when the node
belongs to a single subgroup — destroys the transport-group id range of
this view, signals the workers and joins the sender thread; later calls
are no-ops. -/
theorem wedge_first_call (st0 : PredicateState) (gs : List Nat) (g : Nat)
    (hsh : st0.thread_shutdown = false) : WedgeSpec st0 gs g := by
  have hreg := register_predicates_spec (gs ++ [g]) st0
  have hlast := register_last_handles gs g st0
  have hshreg : (register_predicates (gs ++ [g]) st0).thread_shutdown = false :=
    hreg.2.2.1.trans hsh
  have hw : wedge (register_predicates (gs ++ [g]) st0) =
      ({ register_predicates (gs ++ [g]) st0 with thread_shutdown := true },
       { removed := [(register_predicates (gs ++ [g]) st0).stability_pred_handle,
                     (register_predicates (gs ++ [g]) st0).delivery_pred_handle,
                     (register_predicates (gs ++ [g]) st0).sender_pred_handle],
         destroyed := (List.range (register_predicates (gs ++ [g]) st0).num_members).map
           (· + (register_predicates (gs ++ [g]) st0).rdmc_group_num_offset),
         signaled := true, joined_sender := true }) := by
    unfold wedge
    rw [if_neg]
    rw [hshreg]
    simp
  refine ⟨?_, ?_, ?_, ?_, ?_, ?_, ?_⟩
  · rw [hw]
    simp only
    rw [hlast.1, hlast.2.1, hlast.2.2, handleRange_three]
  · rw [hreg.2.1]
    have hlen : 3 * (gs ++ [g]).length = 3 * gs.length + 3 := by
      simp only [List.length_append, List.length_cons, List.length_nil]
      omega
    rw [hlen]
  · rw [hw]
    simp only
    rw [hreg.2.2.2.1, hreg.2.2.2.2]
  · rw [hw]
  · rw [hw]
  · intro hgs
    rw [hw]
    simp only
    rw [hlast.1, hlast.2.1, hlast.2.2, handleRange_three, hgs]
    simp
  · rw [hw]
    unfold wedge
    rw [if_pos rfl]

/-- C8 (amended) witness. -/
theorem wedge_first_call_witness : WedgeSpec c8State [0] 1 :=
  wedge_first_call c8State [0] 1 rfl

theorem mapFind?_mem {α : Type} {k : Int} {v : α} {m : List (Int × α)}
    (h : mapFind? k m = some v) : (k, v) ∈ m := by
  induction m with
  | nil => simp [mapFind?] at h
  | cons p t ih =>
    obtain ⟨q, w⟩ := p
    rw [mapFind?] at h
    split at h
    · rename_i hk
      cases h
      subst hk
      exact List.mem_cons_self _ _
    · exact List.mem_cons_of_mem _ (ih h)

theorem mapInsert_mem {α : Type} {k : Int} {v : α} {p : Int × α} :
    ∀ {m : List (Int × α)}, p ∈ mapInsert k v m → p = (k, v) ∨ p ∈ m := by
  intro m
  induction m with
  | nil => intro h; simp [mapInsert] at h; exact Or.inl h
  | cons e t ih =>
    obtain ⟨q, w⟩ := e
    intro h
    rw [mapInsert] at h
    split at h
    · rcases List.mem_cons.mp h with rfl | h2
      · exact Or.inl rfl
      · exact Or.inr h2
    · split at h
      · rcases List.mem_cons.mp h with rfl | h2
        · exact Or.inl rfl
        · exact Or.inr (List.mem_cons_of_mem _ h2)
      · rcases List.mem_cons.mp h with rfl | h2
        · exact Or.inr (List.mem_cons_self _ _)
        · rcases ih h2 with h3 | h3
          · exact Or.inl h3
          · exact Or.inr (List.mem_cons_of_mem _ h3)

theorem mapInsert_sorted {α : Type} {k : Int} {v : α} :
    ∀ {m : List (Int × α)}, SortedKeys m → SortedKeys (mapInsert k v m) := by
  intro m
  induction m with
  | nil => intro _; simp [mapInsert, SortedKeys]
  | cons e t ih =>
    obtain ⟨q, w⟩ := e
    intro h
    obtain ⟨hq, ht⟩ := List.pairwise_cons.mp h
    rw [mapInsert]
    split
    · rename_i hlt
      refine List.Pairwise.cons ?_ h
      intro p hp
      rcases List.mem_cons.mp hp with rfl | hp2
      · exact hlt
      · exact lt_trans hlt (hq p hp2)
    · split
      · rename_i hne heq
        subst heq
        exact List.Pairwise.cons hq ht
      · rename_i hnlt hne
        have hgt : q < k := by
          rcases lt_trichotomy k q with h1 | h1 | h1
          · exact absurd h1 hnlt
          · exact absurd h1 hne
          · exact h1
        refine List.Pairwise.cons ?_ (ih ht)
        intro p hp
        rcases mapInsert_mem hp with rfl | hp2
        · exact hgt
        · exact hq p hp2

theorem mapEmplace_mem {α : Type} {k : Int} {v : α} {p : Int × α} {m : List (Int × α)}
    (h : p ∈ mapEmplace k v m) : p = (k, v) ∨ p ∈ m := by
  unfold mapEmplace at h
  split at h
  · exact Or.inr h
  · exact mapInsert_mem h

theorem mapEmplace_sorted {α : Type} {k : Int} {v : α} {m : List (Int × α)}
    (h : SortedKeys m) : SortedKeys (mapEmplace k v m) := by
  unfold mapEmplace
  split
  · exact h
  · exact mapInsert_sorted h

theorem mapErase_sublist {α : Type} (k : Int) :
    ∀ (m : List (Int × α)), List.Sublist (mapErase k m) m := by
  intro m
  induction m with
  | nil => simp [mapErase]
  | cons e t ih =>
    obtain ⟨q, w⟩ := e
    rw [mapErase]
    split
    · exact List.sublist_cons_self _ _
    · exact List.Sublist.cons₂ _ ih

theorem mapErase_mem {α : Type} {k : Int} {p : Int × α} {m : List (Int × α)}
    (h : p ∈ mapErase k m) : p ∈ m :=
  (mapErase_sublist k m).subset h

theorem mapErase_sorted {α : Type} {k : Int} {m : List (Int × α)}
    (h : SortedKeys m) : SortedKeys (mapErase k m) :=
  List.Pairwise.sublist (mapErase_sublist k m) h

theorem sorted_head_lt {α : Type} {q : Int} {w : α} {t : List (Int × α)}
    (h : SortedKeys ((q, w) :: t)) : ∀ p ∈ t, q < p.1 :=
  (List.pairwise_cons.mp h).1

theorem getD_set_eq : ∀ (l : List Int) (k : Nat) (v : Int), k < l.length →
    (l.set k v).getD k 0 = v
  | [], k, v, h => absurd h (by simp)
  | a :: t, 0, v, _ => rfl
  | a :: t, k + 1, v, h => getD_set_eq t k v (by simpa using h)

theorem getD_set_ne : ∀ (l : List Int) (k j : Nat) (v : Int), k ≠ j →
    (l.set k v).getD j 0 = l.getD j 0
  | [], _, _, _, _ => rfl
  | a :: t, 0, 0, v, h => absurd rfl h
  | a :: t, 0, j + 1, v, h => rfl
  | a :: t, k + 1, 0, v, h => rfl
  | a :: t, k + 1, j + 1, v, h =>
    getD_set_ne t k j v (fun e => h (by rw [e]))

theorem getD_mem : ∀ (l : List Int) (k : Nat), k < l.length → l.getD k 0 ∈ l
  | [], k, h => absurd h (by simp)
  | a :: t, 0, _ => List.mem_cons_self _ _
  | a :: t, k + 1, h => List.mem_cons_of_mem _ (getD_mem t k (by simpa using h))

theorem getD_ge_of_all {c : Int} (hc : c ≤ 0) :
    ∀ (l : List Int) (k : Nat), (∀ x ∈ l, c ≤ x) → c ≤ l.getD k 0
  | [], k, _ => by simpa using hc
  | a :: t, 0, h => h a (List.mem_cons_self _ _)
  | a :: t, k + 1, h =>
    getD_ge_of_all hc t k (fun x hx => h x (List.mem_cons_of_mem _ hx))

theorem bump_length (l : List Int) (k : Nat) : (bump l k).length = l.length := by
  simp [bump]

theorem bump_getD_self {l : List Int} {k : Nat} (h : k < l.length) :
    (bump l k).getD k 0 = l.getD k 0 + 1 :=
  getD_set_eq l k _ h

theorem bump_getD_ne {l : List Int} {k j : Nat} (h : k ≠ j) :
    (bump l k).getD j 0 = l.getD j 0 :=
  getD_set_ne l k j _ h

theorem bump_getD_ge : ∀ (l : List Int) (k j : Nat), l.getD j 0 ≤ (bump l k).getD j 0
  | [], k, j => by simp [bump]
  | a :: t, 0, 0 => by simp [bump]
  | a :: t, 0, j + 1 => by simp [bump]
  | a :: t, k + 1, 0 => by simp [bump]
  | a :: t, k + 1, j + 1 => by
    have : bump (a :: t) (k + 1) = a :: bump t k := rfl
    rw [this]
    simpa using bump_getD_ge t k j

theorem bump_mem_ge {l : List Int} {k : Nat} (hall : ∀ x ∈ l, -1 ≤ x) :
    ∀ x ∈ bump l k, -1 ≤ x := by
  intro x hx
  rcases List.mem_or_eq_of_mem_set hx with hmem | heq
  · exact hall x hmem
  · subst heq
    have := getD_ge_of_all (by norm_num) l k hall
    omega

theorem foldl_min_le (l : List Int) (a : Int) : l.foldl min a ≤ a := by
  induction l generalizing a with
  | nil => exact le_refl a
  | cons b t ih => exact le_trans (ih (min a b)) (min_le_left a b)

theorem minVI_le (l : List Int) : ∀ x ∈ l, (minVI l).1 ≤ x := by
  induction l with
  | nil => intro x hx; simp at hx
  | cons a t ih =>
    cases t with
    | nil =>
      intro x hx
      rcases List.mem_cons.mp hx with rfl | hx2
      · exact le_refl _
      · simp at hx2
    | cons b t2 =>
      intro x hx
      rw [minVI]
      split
      · rename_i hle
        rcases List.mem_cons.mp hx with rfl | hx2
        · exact le_refl _
        · exact le_trans hle (ih x hx2)
      · rename_i hgt
        push_neg at hgt
        rcases List.mem_cons.mp hx with rfl | hx2
        · exact le_of_lt hgt
        · exact ih x hx2

theorem minVI_spec (l : List Int) (hne : l ≠ []) :
    (minVI l).2 < l.length ∧ l.getD (minVI l).2 0 = (minVI l).1 ∧
    ∀ i, i < (minVI l).2 → (minVI l).1 < l.getD i 0 := by
  induction l with
  | nil => exact absurd rfl hne
  | cons a t ih =>
    cases t with
    | nil =>
      refine ⟨by simp [minVI], by simp [minVI], ?_⟩
      intro i hi
      simp [minVI] at hi
    | cons b t2 =>
      rw [minVI]
      split
      · rename_i hle
        refine ⟨by simp, by simp, ?_⟩
        intro i hi
        simp at hi
      · rename_i hgt
        push_neg at hgt
        obtain ⟨h1, h2, h3⟩ := ih (by simp)
        refine ⟨?_, ?_, ?_⟩
        · simpa using Nat.succ_lt_succ h1
        · simpa using h2
        · intro i hi
          cases i with
          | zero => simpa using hgt
          | succ i2 =>
            have := h3 i2 (Nat.lt_of_succ_lt_succ hi)
            simpa using this

theorem minVI_lt_bound (l : List Int) (S : Nat) (hlen : l.length = S)
    (j : Nat) (hj : j < S) :
    ((minVI l).1 + 1) * S + (minVI l).2 - 1 < (l.getD j 0 + 1) * S + j := by
  have hne : l ≠ [] := by
    intro h
    rw [h] at hlen
    simp at hlen
    omega
  obtain ⟨h1, h2, h3⟩ := minVI_spec l hne
  have hjl : j < l.length := by omega
  have hle := minVI_le l _ (getD_mem l j hjl)
  have hj0 : (0 : Int) ≤ j := Int.natCast_nonneg j
  by_cases heq : (minVI l).1 = l.getD j 0
  · have hmi : (minVI l).2 ≤ j := by
      by_contra hc
      push_neg at hc
      have := h3 j hc
      omega
    have hmii : ((minVI l).2 : Int) ≤ (j : Int) := by exact_mod_cast hmi
    rw [← heq]
    linarith
  · have hlt : (minVI l).1 < l.getD j 0 := lt_of_le_of_ne hle heq
    have hS : ((minVI l).1 + 2) * (S : Int) ≤ (l.getD j 0 + 1) * S := by
      apply mul_le_mul_of_nonneg_right
      · omega
      · exact Int.natCast_nonneg S
    have hexp : ((minVI l).1 + 2) * (S : Int) = ((minVI l).1 + 1) * S + S := by ring
    have hmi : ((minVI l).2 : Int) < (S : Int) := by
      exact_mod_cast hlen ▸ h1
    linarith

theorem decomp_unique {S : Nat} {i i' : Int} {k k' : Nat}
    (hk : k < S) (hk' : k' < S) (hi : 0 ≤ i) (hi' : 0 ≤ i')
    (h : i * S + k = i' * S + k') : i = i' ∧ k = k' := by
  have hS0 : 0 < S := Nat.lt_of_le_of_lt (Nat.zero_le k) hk
  have hSZ : (S : Int) ≠ 0 := by exact_mod_cast Nat.pos_iff_ne_zero.mp hS0
  have hmod : ∀ (a : Int) (b : Nat), 0 ≤ a → b < S → (a * S + b) % S = b := by
    intro a b ha hb
    rw [add_comm, mul_comm, Int.add_mul_emod_self_left]
    exact Int.emod_eq_of_lt (Int.natCast_nonneg b) (by exact_mod_cast hb)
  have hk2 : (k : Int) = k' := by
    have e1 := hmod i k hi hk
    have e2 := hmod i' k' hi' hk'
    rw [← e1, ← e2, h]
  have hkk : k = k' := by exact_mod_cast hk2
  subst hkk
  have hii : i * S = i' * S := by omega
  exact ⟨mul_right_cancel₀ hSZ hii, rfl⟩

theorem cross_scale {S N i i' k k' : Int} (hSN : S ≤ N)
    (hk0 : 0 ≤ k) (hk : k < S) (hk0' : 0 ≤ k') (hk' : k' < S)
    (h : i' * S + k' < i * S + k) : i' * N + k' < i * N + k := by
  have hS0 : 0 < S := lt_of_le_of_lt hk0 hk
  have hN0 : 0 < N := lt_of_lt_of_le hS0 hSN
  have hii : i' ≤ i := by
    by_contra hc
    push_neg at hc
    have h1 : (i + 1) * S ≤ i' * S :=
      mul_le_mul_of_nonneg_right (by omega) (le_of_lt hS0)
    have h2 : (i + 1) * S = i * S + S := by ring
    linarith
  rcases lt_or_eq_of_le hii with hlt | heq
  · have h1 : (i' + 1) * N ≤ i * N :=
      mul_le_mul_of_nonneg_right (by omega) (le_of_lt hN0)
    have h2 : (i' + 1) * N = i' * N + N := by ring
    linarith
  · subst heq
    linarith

theorem decompN {i : Int} {r N : Nat} (hr : r < N) :
    (i * N + r) % N = r ∧ (i * N + r) / N = i := by
  have hN0 : 0 < N := Nat.lt_of_le_of_lt (Nat.zero_le r) hr
  have hNZ : (N : Int) ≠ 0 := by exact_mod_cast Nat.pos_iff_ne_zero.mp hN0
  constructor
  · rw [add_comm, mul_comm, Int.add_mul_emod_self_left]
    exact Int.emod_eq_of_lt (Int.natCast_nonneg r) (by exact_mod_cast hr)
  · rw [add_comm, mul_comm, Int.add_mul_ediv_left _ _ hNZ]
    rw [Int.ediv_eq_zero_of_lt (Int.natCast_nonneg r) (by exact_mod_cast hr)]
    omega

theorem pauseLoop_nr_length (S k : Nat) :
    ∀ (p : Nat) (i s : Int) (nr : List Int) (ls : List (Int × Message)),
      (pauseLoop S k p i s nr ls).1.length = nr.length := by
  intro p
  induction p with
  | zero => intro i s nr ls; rfl
  | succ p ih =>
    intro i s nr ls
    rw [pauseLoop, ih]
    exact bump_length nr k

theorem pauseLoop_nr_getD_ge (S k : Nat) :
    ∀ (p : Nat) (i s : Int) (nr : List Int) (ls : List (Int × Message)) (j : Nat),
      nr.getD j 0 ≤ (pauseLoop S k p i s nr ls).1.getD j 0 := by
  intro p
  induction p with
  | zero => intro i s nr ls _j; exact le_refl _
  | succ p ih =>
    intro i s nr ls j
    rw [pauseLoop]
    exact le_trans (bump_getD_ge nr k j) (ih _ _ _ _ j)

theorem pauseLoop_nr_mem (S k : Nat) :
    ∀ (p : Nat) (i s : Int) (nr : List Int) (ls : List (Int × Message)),
      (∀ x ∈ nr, -1 ≤ x) → ∀ x ∈ (pauseLoop S k p i s nr ls).1, -1 ≤ x := by
  intro p
  induction p with
  | zero => intro i s nr ls h; exact h
  | succ p ih =>
    intro i s nr ls h
    rw [pauseLoop]
    exact ih _ _ _ _ (bump_mem_ge h)

theorem pauseLoop_ls_sorted (S k : Nat) :
    ∀ (p : Nat) (i s : Int) (nr : List Int) (ls : List (Int × Message)),
      SortedKeys ls → SortedKeys (pauseLoop S k p i s nr ls).2 := by
  intro p
  induction p with
  | zero => intro i s nr ls h; exact h
  | succ p ih =>
    intro i s nr ls h
    rw [pauseLoop]
    exact ih _ _ _ _ (mapInsert_sorted h)

theorem pauseLoop_ls_mem (S k : Nat) :
    ∀ (p : Nat) (i s : Int) (nr : List Int) (ls : List (Int × Message))
      (e : Int × Message), e ∈ (pauseLoop S k p i s nr ls).2 →
      e ∈ ls ∨ ∃ j : Nat, 1 ≤ j ∧ j ≤ p ∧ e.1 = s + j * S ∧
        e.2 = ⟨k, i + j, 0, false, 0⟩ := by
  intro p
  induction p with
  | zero => intro i s nr ls e he; exact Or.inl he
  | succ p ih =>
    intro i s nr ls e he
    rw [pauseLoop] at he
    rcases ih _ _ _ _ e he with hin | ⟨j, hj1, hjp, hkey, hmsg⟩
    · rcases mapInsert_mem hin with heq | hin2
      · right
        refine ⟨1, le_refl 1, by omega, ?_, ?_⟩
        · rw [heq]
          push_cast
          ring
        · rw [heq]
          norm_num
      · exact Or.inl hin2
    · right
      refine ⟨j + 1, by omega, by omega, ?_, ?_⟩
      · rw [hkey]
        push_cast
        ring
      · rw [hmsg]
        have : i + 1 + (j : Int) = i + ((j : Nat) + 1 : Nat) := by push_cast; ring
        rw [this]

theorem countersLE_refl (st : NodeState) : countersLE st st :=
  ⟨fun _j => le_refl _, le_refl _, le_refl _, le_refl _, le_refl _⟩

theorem countersLE_trans {a b c : NodeState} (h1 : countersLE a b) (h2 : countersLE b c) :
    countersLE a c :=
  ⟨fun j => le_trans (h1.1 j) (h2.1 j), le_trans h1.2.1 h2.2.1,
   le_trans h1.2.2.1 h2.2.2.1, le_trans h1.2.2.2.1 h2.2.2.2.1,
   le_trans h1.2.2.2.2 h2.2.2.2.2⟩

theorem recvAssemble_preserves {st1 : NodeState} {k : Nat}
    {pl : List Int × List (Int × Message)}
    (hInv : NodeInv st1)
    (hlen2 : pl.1.length = st1.S)
    (hge2 : ∀ x ∈ pl.1, -1 ≤ x)
    (hmono : ∀ j, st1.num_received.getD j 0 ≤ pl.1.getD j 0)
    (hseqlt : ∀ j, j < st1.S → st1.seq_num < (pl.1.getD j 0 + 1) * st1.S + j)
    (hsorted2 : SortedKeys pl.2)
    (hwf2 : ∀ p ∈ pl.2,
      p.1 = p.2.index * st1.S + p.2.sender_rank ∧ p.2.sender_rank < st1.S ∧
        0 ≤ p.2.index)
    (hgt2 : ∀ p ∈ pl.2, st1.delivered_num < p.1) :
    NodeInv (recvAssemble st1 k pl).1 ∧ countersLE st1 (recvAssemble st1 k pl).1 := by
  obtain ⟨h1, h2, h3, h4, h5, h6, h7, h8, h9, h10, h11, h12, h13, h14, h15, h16, h17⟩ :=
    id hInv
  unfold recvAssemble
  split
  · rename_i hup
    constructor
    · refine ⟨h1, h2, h3, hlen2, hge2, ?_, le_trans h7 (le_of_lt hup), h8,
        hsorted2, h10, h11, hwf2, h13, hgt2, h15, h16, h17⟩
      intro j hj
      exact minVI_lt_bound pl.1 st1.S hlen2 j hj
    · exact ⟨hmono, le_of_lt hup, le_refl _, le_refl _, le_refl _⟩
  · constructor
    · exact ⟨h1, h2, h3, hlen2, hge2, hseqlt, h7, h8, hsorted2, h10, h11, hwf2,
        h13, hgt2, h15, h16, h17⟩
    · exact ⟨hmono, le_refl _, le_refl _, le_refl _, le_refl _⟩

theorem recvFinish_preserves {st1 : NodeState} {k : Nat} {m : Message} {b : Bool}
    (hInv : NodeInv st1) (hk : k < st1.S)
    (hrank : m.sender_rank = k)
    (hindex : m.index = (bump st1.num_received k).getD k 0) :
    NodeInv (recvFinish st1 k m b).1 ∧ countersLE st1 (recvFinish st1 k m b).1 := by
  obtain ⟨h1, h2, h3, h4, h5, h6, h7, h8, h9, h10, h11, h12, h13, h14, h15, h16, h17⟩ :=
    id hInv
  have hklen : k < st1.num_received.length := by rw [h4]; exact hk
  have hnrk : (-1 : Int) ≤ st1.num_received.getD k 0 :=
    getD_ge_of_all (by norm_num) st1.num_received k h5
  have hidx : (bump st1.num_received k).getD k 0 = st1.num_received.getD k 0 + 1 :=
    bump_getD_self hklen
  have hseq0 : st1.seq_num < (bump st1.num_received k).getD k 0 * st1.S + k := by
    rw [hidx]
    exact h6 k hk
  have hidx0 : (0 : Int) ≤ (bump st1.num_received k).getD k 0 := by
    rw [hidx]; omega
  have hls1sorted : SortedKeys
      (if b then
        mapEmplace ((bump st1.num_received k).getD k 0 * st1.S + k) m st1.locally_stable
       else
        mapInsert ((bump st1.num_received k).getD k 0 * st1.S + k) m st1.locally_stable) := by
    split
    · exact mapEmplace_sorted h9
    · exact mapInsert_sorted h9
  have hls1mem : ∀ e ∈
      (if b then
        mapEmplace ((bump st1.num_received k).getD k 0 * st1.S + k) m st1.locally_stable
       else
        mapInsert ((bump st1.num_received k).getD k 0 * st1.S + k) m st1.locally_stable),
      e = ((bump st1.num_received k).getD k 0 * st1.S + k, m) ∨
        e ∈ st1.locally_stable := by
    intro e he
    split at he
    · exact mapEmplace_mem he
    · exact mapInsert_mem he
  unfold recvFinish
  apply recvAssemble_preserves hInv
  · rw [pauseLoop_nr_length, bump_length, h4]
  · exact pauseLoop_nr_mem _ _ _ _ _ _ _ (bump_mem_ge h5)
  · intro j
    exact le_trans (bump_getD_ge st1.num_received k j)
      (pauseLoop_nr_getD_ge _ _ _ _ _ _ _ j)
  · intro j hj
    have hj6 := h6 j hj
    have hmj : st1.num_received.getD j 0 ≤
        (pauseLoop st1.S k m.pause ((bump st1.num_received k).getD k 0)
          ((bump st1.num_received k).getD k 0 * st1.S + k) (bump st1.num_received k)
          (if b then
            mapEmplace ((bump st1.num_received k).getD k 0 * st1.S + k) m
              st1.locally_stable
           else
            mapInsert ((bump st1.num_received k).getD k 0 * st1.S + k) m
              st1.locally_stable)).1.getD j 0 :=
      le_trans (bump_getD_ge st1.num_received k j)
        (pauseLoop_nr_getD_ge _ _ _ _ _ _ _ j)
    have hmul : (st1.num_received.getD j 0 + 1) * (st1.S : Int) ≤
        ((pauseLoop st1.S k m.pause ((bump st1.num_received k).getD k 0)
          ((bump st1.num_received k).getD k 0 * st1.S + k) (bump st1.num_received k)
          (if b then
            mapEmplace ((bump st1.num_received k).getD k 0 * st1.S + k) m
              st1.locally_stable
           else
            mapInsert ((bump st1.num_received k).getD k 0 * st1.S + k) m
              st1.locally_stable)).1.getD j 0 + 1) * st1.S :=
      mul_le_mul_of_nonneg_right (by omega) (Int.natCast_nonneg st1.S)
    linarith
  · exact pauseLoop_ls_sorted _ _ _ _ _ _ _ hls1sorted
  · intro e he
    rcases pauseLoop_ls_mem _ _ _ _ _ _ _ e he with hin | ⟨j, hj1, hjp, hkey, hmsg⟩
    · rcases hls1mem e hin with heq | hin2
      · subst heq
        refine ⟨?_, ?_, ?_⟩
        · rw [hindex, hrank]
        · rw [hrank]; exact hk
        · rw [hindex]; exact hidx0
      · exact h12 e hin2
    · refine ⟨?_, ?_, ?_⟩
      · rw [hkey, hmsg]
        push_cast
        ring
      · rw [hmsg]
        exact hk
      · rw [hmsg]
        have hj0 : (0 : Int) ≤ (j : Int) := Int.natCast_nonneg j
        simp only
        omega
  · intro e he
    rcases pauseLoop_ls_mem _ _ _ _ _ _ _ e he with hin | ⟨j, hj1, hjp, hkey, hmsg⟩
    · rcases hls1mem e hin with heq | hin2
      · subst heq
        exact lt_of_le_of_lt (le_trans h8 h7) hseq0
      · exact h14 e hin2
    · rw [hkey]
      have hj0 : (0 : Int) ≤ (j : Int) * st1.S :=
        mul_nonneg (Int.natCast_nonneg j) (Int.natCast_nonneg st1.S)
      have hd : st1.delivered_num < (bump st1.num_received k).getD k 0 * st1.S + k :=
        lt_of_le_of_lt (le_trans h8 h7) hseq0
      linarith

theorem some_pair_fst {alpha beta : Type} {X : alpha × beta} {a : alpha} {b : beta}
    (h : some X = some (a, b)) : a = X.1 := by
  rw [Option.some.inj h]

theorem nodeInv_set_current_sends {st : NodeState} (hInv : NodeInv st)
    (c : Option Message) : NodeInv { st with current_sends := c } := hInv

theorem nodeInv_erase_cr {st : NodeState} (hInv : NodeInv st) (q : Int) :
    NodeInv { st with current_receives := mapErase q st.current_receives } := by
  obtain ⟨h1, h2, h3, h4, h5, h6, h7, h8, h9, h10, h11, h12, h13, h14, h15, h16, h17⟩ :=
    hInv
  exact ⟨h1, h2, h3, h4, h5, h6, h7, h8, h9, mapErase_sorted h10, h11, h12,
    fun p hp => h13 p (mapErase_mem hp), h14, h15, h16, h17⟩

theorem recvStep_preserves {st : NodeState} {k : Nat} {st' : NodeState}
    {evs : List Event} (hInv : NodeInv st)
    (h : recvStep st k = some (st', evs)) : NodeInv st' ∧ countersLE st st' := by
  obtain ⟨h1, h2, h3, h4, h5, h6, h7, h8, h9, h10, h11, h12, h13, h14, h15, h16, h17⟩ :=
    id hInv
  unfold recvStep at h
  split at h
  · rename_i hk
    split at h
    · rename_i hmy
      split at h
      case h_2 => exact Option.noConfusion h
      case h_1 m hcs =>
        split at h
        · rename_i hgm
          rw [some_pair_fst h]
          exact recvFinish_preserves (nodeInv_set_current_sends hInv none) hk
            hgm.1 hgm.2
        · exact Option.noConfusion h
    · rename_i hmy
      split at h
      case h_2 => exact Option.noConfusion h
      case h_1 m hfind =>
        have hmem := mapFind?_mem hfind
        have hkey : (bump st.num_received k).getD k 0 * st.S + k =
            m.index * st.S + m.sender_rank := (h13 _ hmem).1
        have hrk : m.sender_rank < st.S := (h13 _ hmem).2.1
        have hix : (0 : Int) ≤ m.index := (h13 _ hmem).2.2
        have hidx : (bump st.num_received k).getD k 0 =
            st.num_received.getD k 0 + 1 :=
          bump_getD_self (by rw [h4]; exact hk)
        have hidx0 : (0 : Int) ≤ (bump st.num_received k).getD k 0 := by
          have := getD_ge_of_all (by norm_num) st.num_received k h5
          rw [hidx]
          omega
        have hdec := @decomp_unique st.S m.index ((bump st.num_received k).getD k 0)
          m.sender_rank k hrk hk hix hidx0 (by rw [← hkey])
        rw [some_pair_fst h]
        exact recvFinish_preserves (nodeInv_erase_cr hInv _) hk hdec.2 hdec.1
  · exact Option.noConfusion h

theorem destStep_preserves {st : NodeState} {k len p : Nat} {c : Bool}
    {st' : NodeState} {evs : List Event} (hInv : NodeInv st)
    (h : destStep st k len p c = some (st', evs)) :
    NodeInv st' ∧ countersLE st st' := by
  obtain ⟨h1, h2, h3, h4, h5, h6, h7, h8, h9, h10, h11, h12, h13, h14, h15, h16, h17⟩ :=
    id hInv
  unfold destStep at h
  split at h
  · exact Option.noConfusion h
  · split at h
    · rename_i hk
      split at h
      · exact Option.noConfusion h
      · rw [some_pair_fst h]
        constructor
        · refine ⟨h1, h2, h3, h4, h5, h6, h7, h8, h9, mapInsert_sorted h10, h11,
            h12, ?_, h14, h15, h16, h17⟩
          intro e he
          rcases mapInsert_mem he with heq | hin
          · subst heq
            refine ⟨rfl, hk, ?_⟩
            have := getD_ge_of_all (by norm_num) st.num_received k h5
            simp only
            omega
          · exact h13 e hin
        · exact countersLE_refl st
    · exact Option.noConfusion h

theorem loadSendStep_preserves {st : NodeState} {m : Message} {st' : NodeState}
    {evs : List Event} (hInv : NodeInv st)
    (h : loadSendStep st m = some (st', evs)) : NodeInv st' ∧ countersLE st st' := by
  unfold loadSendStep at h
  split at h
  case h_1 w hcs => exact Option.noConfusion h
  case h_2 hcs =>
    rw [some_pair_fst h]
    exact ⟨nodeInv_set_current_sends hInv _, countersLE_refl st⟩

theorem stabilityStep_preserves {st : NodeState} (others : List Int)
    (hInv : NodeInv st) :
    NodeInv (stabilityStep st others).1 ∧ countersLE st (stabilityStep st others).1 := by
  obtain ⟨h1, h2, h3, h4, h5, h6, h7, h8, h9, h10, h11, h12, h13, h14, h15, h16, h17⟩ :=
    id hInv
  unfold stabilityStep
  split
  · rename_i hup
    constructor
    · exact ⟨h1, h2, h3, h4, h5, h6, foldl_min_le others st.seq_num,
        le_trans h8 (le_of_lt hup), h9, h10, h11, h12, h13, h14, h15, h16, h17⟩
    · exact ⟨fun j => le_refl _, le_refl _, le_of_lt hup, le_refl _, le_refl _⟩
  · exact ⟨hInv, countersLE_refl st⟩

theorem deliveryStep_eq_cons {st : NodeState} (others : List Int) {q : Int}
    {m : Message} {rest : List (Int × Message)}
    (hls : st.locally_stable = (q, m) :: rest) :
    deliveryStep st others =
      if q ≤ others.foldl min st.stable_num then
        ({ (deliver_message st m).1 with
             delivered_num := q, locally_stable := rest },
         (deliver_message st m).2 ++ [.putDeliveredNum])
      else (st, []) := by
  unfold deliveryStep
  rw [hls]

theorem deliveryStep_preserves {st : NodeState} (others : List Int)
    (hInv : NodeInv st) :
    NodeInv (deliveryStep st others).1 ∧ countersLE st (deliveryStep st others).1 := by
  obtain ⟨h1, h2, h3, h4, h5, h6, h7, h8, h9, h10, h11, h12, h13, h14, h15, h16, h17⟩ :=
    id hInv
  cases hls : st.locally_stable with
  | nil =>
    have heq : deliveryStep st others = (st, []) := by
      unfold deliveryStep
      rw [hls]
    rw [heq]
    exact ⟨hInv, countersLE_refl st⟩
  | cons hd rest =>
    obtain ⟨q, m⟩ := hd
    rw [deliveryStep_eq_cons others hls]
    split
    · rename_i hq
      have hmin : others.foldl min st.stable_num ≤ st.stable_num :=
        foldl_min_le others st.stable_num
      have hqs : q ≤ st.stable_num := le_trans hq hmin
      have hmemhd : (q, m) ∈ st.locally_stable := by
        rw [hls]; exact List.mem_cons_self _ _
      have hqd : st.delivered_num < q := h14 _ hmemhd
      have hwfq : q = m.index * st.S + m.sender_rank := (h12 _ hmemhd).1
      have hwfr : m.sender_rank < st.S := (h12 _ hmemhd).2.1
      have hwfi : (0 : Int) ≤ m.index := (h12 _ hmemhd).2.2
      have hsk : SortedKeys ((q, m) :: rest) := hls ▸ h9
      have hresttail : SortedKeys rest := (List.pairwise_cons.mp hsk).2
      have hrestgt : ∀ e ∈ rest, q < e.1 := sorted_head_lt hsk
      have hrestmem : ∀ e ∈ rest, e ∈ st.locally_stable := by
        intro e he
        rw [hls]
        exact List.mem_cons_of_mem _ he
      unfold deliver_message
      split
      · rename_i hsz
        split
        · rename_i hfw
          constructor
          · refine ⟨h1, h2, h3, h4, h5, h6, h7, hqs, hresttail, h10,
              mapEmplace_sorted h11, fun e he => h12 e (hrestmem e he), h13,
              hrestgt, ?_, ?_, ?_⟩
            · intro e he
              rcases mapEmplace_mem he with heq | hin
              · subst heq
                exact ⟨rfl, hwfr, hwfi, le_of_eq hwfq.symm⟩
              · obtain ⟨e1, e2, e3, e4⟩ := h15 e hin
                exact ⟨e1, e2, e3, le_trans e4 (le_of_lt hqd)⟩
            · intro e he
              rcases mapEmplace_mem he with heq | hin
              · subst heq
                rcases h17 with hp1 | ⟨hp0, hpm, hpd⟩
                · rw [hp1]
                  have hik : (0:Int) ≤ m.index * st.N := 
                    mul_nonneg hwfi (Int.natCast_nonneg st.N)
                  have hik2 : (0:Int) ≤ (m.sender_rank : Int) :=
                    Int.natCast_nonneg m.sender_rank
                  simp only
                  linarith
                · have hN0 : 0 < st.N := by omega
                  have hNZ : (st.N : Int) ≠ 0 := by
                    exact_mod_cast Nat.pos_iff_ne_zero.mp hN0
                  have hdecomp : (st.N : Int) * (st.persisted_num / st.N) +
                      st.persisted_num % st.N = st.persisted_num :=
                    Int.ediv_add_emod st.persisted_num st.N
                  have hlt : st.persisted_num / st.N * st.S +
                      st.persisted_num % st.N < m.index * st.S + m.sender_rank := by
                    rw [← hwfq]
                    exact lt_of_le_of_lt hpd hqd
                  have hcs := @cross_scale (st.S : Int) (st.N : Int) m.index
                    (st.persisted_num / st.N) (m.sender_rank : Int)
                    (st.persisted_num % st.N)
                    (by exact_mod_cast h2)
                    (Int.natCast_nonneg m.sender_rank)
                    (by exact_mod_cast hwfr)
                    (Int.emod_nonneg st.persisted_num hNZ)
                    hpm
                    hlt
                  simp only
                  linarith
              · exact h16 e hin
            · rcases h17 with hp1 | ⟨hp0, hpm, hpd⟩
              · exact Or.inl hp1
              · exact Or.inr ⟨hp0, hpm, le_trans hpd (le_of_lt hqd)⟩
          · exact ⟨fun j => le_refl _, le_refl _, le_refl _, le_of_lt hqd, le_refl _⟩
        · constructor
          · refine ⟨h1, h2, h3, h4, h5, h6, h7, hqs, hresttail, h10, h11,
              fun e he => h12 e (hrestmem e he), h13, hrestgt, ?_, h16, ?_⟩
            · intro e he
              obtain ⟨e1, e2, e3, e4⟩ := h15 e he
              exact ⟨e1, e2, e3, le_trans e4 (le_of_lt hqd)⟩
            · rcases h17 with hp1 | ⟨hp0, hpm, hpd⟩
              · exact Or.inl hp1
              · exact Or.inr ⟨hp0, hpm, le_trans hpd (le_of_lt hqd)⟩
          · exact ⟨fun j => le_refl _, le_refl _, le_refl _, le_of_lt hqd, le_refl _⟩
      · constructor
        · refine ⟨h1, h2, h3, h4, h5, h6, h7, hqs, hresttail, h10, h11,
            fun e he => h12 e (hrestmem e he), h13, hrestgt, ?_, h16, ?_⟩
          · intro e he
            obtain ⟨e1, e2, e3, e4⟩ := h15 e he
            exact ⟨e1, e2, e3, le_trans e4 (le_of_lt hqd)⟩
          · rcases h17 with hp1 | ⟨hp0, hpm, hpd⟩
            · exact Or.inl hp1
            · exact Or.inr ⟨hp0, hpm, le_trans hpd (le_of_lt hqd)⟩
        · exact ⟨fun j => le_refl _, le_refl _, le_refl _, le_of_lt hqd, le_refl _⟩
    · exact ⟨hInv, countersLE_refl st⟩

theorem persistStep_preserves {st : NodeState} {st' : NodeState} {evs : List Event}
    (hInv : NodeInv st) (h : persistStep st = some (st', evs)) :
    NodeInv st' ∧ countersLE st st' := by
  obtain ⟨h1, h2, h3, h4, h5, h6, h7, h8, h9, h10, h11, h12, h13, h14, h15, h16, h17⟩ :=
    id hInv
  unfold persistStep at h
  split at h
  case h_1 hnp => exact Option.noConfusion h
  case h_2 q m rest hnp =>
    rw [some_pair_fst h]
    dsimp only
    have hmemhd : (q, m) ∈ st.non_persistent := by
      rw [hnp]; exact List.mem_cons_self _ _
    have hkey : q = m.index * st.N + m.sender_rank := (h15 _ hmemhd).1
    have hrk : m.sender_rank < st.S := (h15 _ hmemhd).2.1
    have hix : (0 : Int) ≤ m.index := (h15 _ hmemhd).2.2.1
    have hbd : m.index * st.S + m.sender_rank ≤ st.delivered_num :=
      (h15 _ hmemhd).2.2.2
    have hqp : st.persisted_num < q := h16 _ hmemhd
    have hrkN : m.sender_rank < st.N := Nat.lt_of_lt_of_le hrk h2
    have hdec := decompN (i := m.index) (r := m.sender_rank) hrkN
    have hsk : SortedKeys ((q, m) :: rest) := hnp ▸ h11
    constructor
    · refine ⟨h1, h2, h3, h4, h5, h6, h7, h8, h9, h10,
        (List.pairwise_cons.mp hsk).2, h12, h13, h14, ?_, ?_, ?_⟩
      · intro e he
        exact h15 e (by rw [hnp]; exact List.mem_cons_of_mem _ he)
      · intro e he
        exact sorted_head_lt hsk e he
      · refine Or.inr ⟨?_, ?_, ?_⟩
        · show (0 : Int) ≤ q
          rw [hkey]
          have hik : (0:Int) ≤ m.index * st.N :=
            mul_nonneg hix (Int.natCast_nonneg st.N)
          have hik2 : (0:Int) ≤ (m.sender_rank : Int) :=
            Int.natCast_nonneg m.sender_rank
          linarith
        · show q % (st.N : Int) < (st.S : Int)
          rw [hkey, hdec.1]
          exact_mod_cast hrk
        · show q / (st.N : Int) * (st.S : Int) + q % (st.N : Int) ≤ st.delivered_num
          rw [hkey, hdec.1, hdec.2]
          exact hbd
    · exact ⟨fun j => le_refl _, le_refl _, le_refl _, le_refl _, le_of_lt hqp⟩

theorem applyStep_preserves {st : NodeState} {l : StepLabel} {st' : NodeState}
    {evs : List Event} (hInv : NodeInv st)
    (h : applyStep st l = some (st', evs)) : NodeInv st' ∧ countersLE st st' := by
  cases l with
  | dest k len p c => exact destStep_preserves hInv h
  | recv k => exact recvStep_preserves hInv h
  | loadSend m => exact loadSendStep_preserves hInv h
  | stability o =>
    rw [some_pair_fst h]
    exact stabilityStep_preserves o hInv
  | delivery o =>
    rw [some_pair_fst h]
    exact deliveryStep_preserves o hInv
  | persist => exact persistStep_preserves hInv h

theorem some_pair_snd {alpha beta : Type} {X : alpha × beta} {a : alpha} {b : beta}
    (h : some X = some (a, b)) : b = X.2 := by
  rw [Option.some.inj h]

theorem replicate_getD : ∀ (n j : Nat) (c : Int), j < n →
    (List.replicate n c).getD j 0 = c
  | 0, j, c, h => absurd h (by omega)
  | n + 1, 0, c, _ => rfl
  | n + 1, j + 1, c, h => replicate_getD n j c (by omega)

theorem initNodeState_inv (S N myk : Nat) (hasFW : Bool) (window_size : Nat)
    (h1 : 1 ≤ S) (h2 : S ≤ N) (h3 : myk < S) :
    NodeInv (initNodeState S N myk hasFW window_size) := by
  refine ⟨h1, h2, h3, List.length_replicate S (-1), ?_, ?_, le_refl _, le_refl _,
    List.Pairwise.nil, List.Pairwise.nil, List.Pairwise.nil, ?_, ?_, ?_, ?_, ?_,
    Or.inl rfl⟩
  · intro x hx
    rw [List.eq_of_mem_replicate hx]
  · intro j hj
    show (-1 : Int) < ((List.replicate S (-1 : Int)).getD j 0 + 1) * S + j
    rw [replicate_getD S j (-1) hj]
    have hj0 : (0 : Int) ≤ (j : Int) := Int.natCast_nonneg j
    have hS0 : (0 : Int) ≤ (S : Int) := Int.natCast_nonneg S
    have : ((-1 : Int) + 1) * S = 0 := by ring
    linarith
  · intro p hp; exact absurd hp (List.not_mem_nil p)
  · intro p hp; exact absurd hp (List.not_mem_nil p)
  · intro p hp; exact absurd hp (List.not_mem_nil p)
  · intro p hp; exact absurd hp (List.not_mem_nil p)
  · intro p hp; exact absurd hp (List.not_mem_nil p)

theorem run_preserves {labels : List StepLabel} {st st' : NodeState}
    (hInv : NodeInv st) (h : run st labels = some st') :
    NodeInv st' ∧ countersLE st st' := by
  induction labels generalizing st with
  | nil =>
    rw [run] at h
    cases Option.some.inj h
    exact ⟨hInv, countersLE_refl _⟩
  | cons l rest ih =>
    rw [run] at h
    split at h
    case h_1 st1 evs heq =>
      have hp := applyStep_preserves hInv heq
      have hr := ih hp.1 h
      exact ⟨hr.1, countersLE_trans hp.2 hr.2⟩
    case h_2 => exact Option.noConfusion h

/-- C6: across any finite schedule of receive-handler, destination,
stability-trigger, delivery-trigger, sender and persistence-completion
steps from a state satisfying the machine invariant (in particular from
the `initialize_sst_row` state), the counters `num_received`, `seq_num`,
`stable_num`, `delivered_num` and `persisted_num` of this node's SST row
are monotonic non-decreasing. -/
theorem counters_monotone (labels : List StepLabel) (st st' : NodeState)
    (hInv : NodeInv st) (h : run st labels = some st') : countersLE st st' :=
  (run_preserves hInv h).2

/-- C6 witness. -/
theorem counters_monotone_witness : countersLE c6State c6End :=
  counters_monotone c6Labels c6State c6End (by decide) (by decide)

theorem recvAssemble_spec {st1 : NodeState} {k : Nat}
    {pl : List Int × List (Int × Message)} (hne : pl.1 ≠ []) :
    RecvSeqSpec st1 (recvAssemble st1 k pl).1 k (recvAssemble st1 k pl).2 := by
  obtain ⟨hi1, hi2, hi3⟩ := minVI_spec pl.1 hne
  have hmem : (minVI pl.1).1 ∈ pl.1 := hi2 ▸ getD_mem pl.1 (minVI pl.1).2 hi1
  have hputs : ∀ b : Bool, putEvents ([Event.putSeqNum, Event.putNumReceived k] ++
      (if k = st1.myk then [Event.notifySender] else [])) =
      [Event.putSeqNum, Event.putNumReceived k] := by
    intro b
    split <;> rfl
  have hputs2 : putEvents ([Event.putNumReceived k] ++
      (if k = st1.myk then [Event.notifySender] else [])) =
      [Event.putNumReceived k] := by
    split <;> rfl
  unfold recvAssemble
  split
  · rename_i hlt
    exact ⟨(minVI pl.1).1, (minVI pl.1).2, hmem, minVI_le pl.1, hi2, hi3, hi1,
      fun _ => ⟨rfl, hputs true⟩,
      fun hc => absurd hlt (not_lt.mpr hc)⟩
  · rename_i hnlt
    exact ⟨(minVI pl.1).1, (minVI pl.1).2, hmem, minVI_le pl.1, hi2, hi3, hi1,
      fun hc => absurd hc hnlt,
      fun _ => ⟨rfl, hputs2⟩⟩

theorem recvFinish_spec {st1 : NodeState} {k : Nat} {m : Message} {b : Bool}
    (hlen : st1.num_received.length = st1.S) (hS : 1 ≤ st1.S) :
    RecvSeqSpec st1 (recvFinish st1 k m b).1 k (recvFinish st1 k m b).2 := by
  unfold recvFinish
  apply recvAssemble_spec
  have hlen2 : (pauseLoop st1.S k m.pause ((bump st1.num_received k).getD k 0)
      ((bump st1.num_received k).getD k 0 * st1.S + k) (bump st1.num_received k)
      (if b then
        mapEmplace ((bump st1.num_received k).getD k 0 * st1.S + k) m
          st1.locally_stable
       else
        mapInsert ((bump st1.num_received k).getD k 0 * st1.S + k) m
          st1.locally_stable)).1.length = st1.S := by
    rw [pauseLoop_nr_length, bump_length, hlen]
  intro hemp
  rw [hemp] at hlen2
  simp at hlen2
  omega

/-- C4: on every receive completion for sender slot `k`, after
`num_received` is bumped and the placeholders inserted, the handler
computes `new_seq_num = (mv + 1) * S + mi - 1` with `mv` the minimum of
the updated `num_received` slots and `mi` the first index attaining it;
when `new_seq_num` exceeds `seq_num` it sets `seq_num` and publishes
both `seq_num` and `num_received`, otherwise it publishes only
`num_received`. -/
theorem recv_handler_seq_num (st st' : NodeState) (k : Nat) (evs : List Event)
    (hInv : NodeInv st) (h : recvStep st k = some (st', evs)) :
    RecvSeqSpec st st' k evs := by
  obtain ⟨h1, h2, h3, h4, hrest⟩ := id hInv
  unfold recvStep at h
  split at h
  · rename_i hk
    split at h
    · rename_i hmy
      split at h
      case h_2 => exact Option.noConfusion h
      case h_1 m hcs =>
        split at h
        · rw [some_pair_fst h, some_pair_snd h]
          exact recvFinish_spec h4 h1
        · exact Option.noConfusion h
    · rename_i hmy
      split at h
      case h_2 => exact Option.noConfusion h
      case h_1 m hfind =>
        rw [some_pair_fst h, some_pair_snd h]
        exact recvFinish_spec h4 h1
  · exact Option.noConfusion h

/-- C4 witness. -/
theorem recv_handler_seq_num_witness :
    RecvSeqSpec c4State c4Result.1 0 c4Result.2 :=
  recv_handler_seq_num c4State c4Result.1 0 c4Result.2 (by decide) (by decide)

/-- C5: when the least-key entry `(q, m)` of `locally_stable_messages`
is no larger than the shard minimum of `stable_num`, the delivery
trigger delivers exactly that one message, sets `delivered_num` to `q`
and publishes it, and removes the entry; a size-zero placeholder is
consumed this way without any user callback firing. -/
theorem delivery_trig_delivers_head (st : NodeState) (others : List Int)
    (q : Int) (m : Message) (rest : List (Int × Message))
    (hls : st.locally_stable = (q, m) :: rest)
    (hsorted : SortedKeys st.locally_stable)
    (hstable : q ≤ others.foldl min st.stable_num) :
    DeliverySpec st others q m rest := by
  unfold DeliverySpec
  rw [deliveryStep_eq_cons others hls, if_pos hstable]
  refine ⟨rfl, rfl, ?_, ?_, ?_⟩
  · exact List.mem_append_right _ (List.mem_singleton.mpr rfl)
  · exact sorted_head_lt (hls ▸ hsorted)
  · unfold deliver_message
    rcases Nat.eq_zero_or_pos m.size with hz | hp
    · rw [if_pos hz, if_neg (by omega : ¬ 0 < m.size)]
      rfl
    · rw [if_neg (by omega : ¬ m.size = 0), if_pos hp]
      split
      · cases hc : m.cooked <;> rfl
      · cases hc : m.cooked <;> rfl

/-- C5 witness. -/
theorem delivery_trig_delivers_head_witness :
    DeliverySpec c5State [] 0 ⟨0, 0, 20, false, 0⟩ [] :=
  delivery_trig_delivers_head c5State [] 0 ⟨0, 0, 20, false, 0⟩ [] (by decide)
    (by decide) (by decide)

end Derecho
